import Mathlib

/-!
Verification of the fasts3 core (s3wrapper/s3.go, main.go) against its
specification.  Strings are modelled as lists of characters; Go library
helpers (strings.Split, strings.Join, path.Clean, path.Join) are embedded
at the granularity they operate at.
-/

namespace FastS3

/-- Strings are modelled as lists of characters. -/
abbrev Str := List Char

/-- Helper for splitC: prepend a character to the first part. -/
def consPart (a : Char) : List Str → List Str
  | [] => [[a]]
  | h :: t => (a :: h) :: t

/-- Go strings.Split for a one-character separator, as used with the
delimiter "/" throughout the code. -/
def splitC (c : Char) : Str → List Str
  | [] => [[]]
  | a :: rest => if a = c then [] :: splitC c rest else consPart a (splitC c rest)

/-- Go strings.Join for a one-character separator. -/
def joinC (c : Char) : List Str → Str
  | [] => []
  | [x] => x
  | x :: xs => x ++ c :: joinC c xs

theorem joinC_cons (c : Char) (x : Str) (xs : List Str) (h : xs ≠ []) :
    joinC c (x :: xs) = x ++ c :: joinC c xs := by
  cases xs with
  | nil => exact absurd rfl h
  | cons y ys => rfl

theorem splitC_ne_nil (c : Char) (s : Str) : splitC c s ≠ [] := by
  cases s with
  | nil => simp [splitC]
  | cons a rest =>
    simp only [splitC]
    by_cases hac : a = c
    · simp [hac]
    · simp only [hac, if_false]
      cases h : splitC c rest with
      | nil => simp [consPart]
      | cons x t => simp [consPart]

/-- Splitting a separator-free string is the identity (one part). -/
theorem splitC_no_sep (c : Char) (p : Str) (hp : c ∉ p) : splitC c p = [p] := by
  induction p with
  | nil => rfl
  | cons a rest ih =>
    have hac : a ≠ c := by
      intro h; exact hp (h ▸ List.mem_cons_self a rest)
    have hrest : c ∉ rest := fun h => hp (List.mem_cons_of_mem a h)
    simp only [splitC, hac, if_false, ih hrest, consPart]

/-- Splitting after a separator-free head part peels off that part. -/
theorem splitC_append_sep (c : Char) (p t : Str) (hp : c ∉ p) :
    splitC c (p ++ c :: t) = p :: splitC c t := by
  induction p with
  | nil => simp [splitC]
  | cons a rest ih =>
    have hac : a ≠ c := by
      intro h; exact hp (h ▸ List.mem_cons_self a rest)
    have hrest : c ∉ rest := fun h => hp (List.mem_cons_of_mem a h)
    simp only [List.cons_append, splitC, hac, if_false, List.append_eq]
    rw [ih hrest]
    simp [consPart]

/-- splitC is a left inverse of joinC on separator-free parts. -/
theorem splitC_joinC (c : Char) (parts : List Str) (hne : parts ≠ [])
    (hfree : ∀ p ∈ parts, c ∉ p) : splitC c (joinC c parts) = parts := by
  induction parts with
  | nil => exact absurd rfl hne
  | cons p rest ih =>
    cases rest with
    | nil =>
      simp only [joinC]
      exact splitC_no_sep c p (hfree p (List.mem_cons_self p []))
    | cons q qs =>
      rw [joinC_cons c p (q :: qs) (by simp)]
      rw [splitC_append_sep c p (joinC c (q :: qs))
        (hfree p (List.mem_cons_self p (q :: qs)))]
      rw [ih (by simp) (fun x hx => hfree x (List.mem_cons_of_mem p hx))]

/-- joinC is a left inverse of splitC. -/
theorem joinC_splitC (c : Char) (s : Str) : joinC c (splitC c s) = s := by
  induction s with
  | nil => rfl
  | cons a rest ih =>
    simp only [splitC]
    by_cases hac : a = c
    · simp only [hac, if_true]
      rw [joinC_cons c [] (splitC c rest) (splitC_ne_nil c rest), ih]
      simp
    · simp only [hac, if_false]
      cases h : splitC c rest with
      | nil => exact absurd h (splitC_ne_nil c rest)
      | cons x xs =>
        cases xs with
        | nil =>
          simp only [consPart, joinC]
          have := ih
          rw [h] at this
          simp only [joinC] at this
          rw [this]
        | cons y ys =>
          simp only [consPart]
          rw [joinC_cons c (a :: x) (y :: ys) (by simp)]
          have := ih
          rw [h, joinC_cons c x (y :: ys) (by simp)] at this
          simp only [List.cons_append]
          rw [this]

/-- Every part produced by splitC is separator-free. -/
theorem mem_splitC_sep_free (c : Char) (s : Str) :
    ∀ p ∈ splitC c s, c ∉ p := by
  induction s with
  | nil => simp [splitC]
  | cons a rest ih =>
    simp only [splitC]
    by_cases hac : a = c
    · simp only [hac, if_true]
      intro p hp
      rcases List.mem_cons.mp hp with h | h
      · simp [h]
      · exact ih p h
    · simp only [hac, if_false]
      cases h : splitC c rest with
      | nil => exact absurd h (splitC_ne_nil c rest)
      | cons x xs =>
        simp only [consPart]
        intro p hp
        rcases List.mem_cons.mp hp with hpx | hpxs
        · subst hpx
          intro hc
          rcases List.mem_cons.mp hc with h1 | h1
          · exact hac h1.symm
          · exact ih x (h ▸ List.mem_cons_self x xs) h1
        · exact ih p (h ▸ List.mem_cons_of_mem x hpxs)

/-! Go path.Clean and path.Join, modelled on delimiter segments.
Go's byte-level Clean is equivalent to: split on "/", drop empty and "."
segments, let ".." pop the previous segment (kept at the start of a
relative path, dropped at the root of a rooted one), and re-join. -/

/-- Whether a path is rooted (starts with "/"). -/
def isRooted : Str → Bool
  | [] => false
  | a :: _ => a = '/'

/-- Stack-based processing of path segments, as performed by Go path.Clean. -/
def cleanStack (rooted : Bool) : List Str → List Str → List Str
  | stack, [] => stack.reverse
  | stack, seg :: rest =>
    if seg = [] ∨ seg = ['.'] then cleanStack rooted stack rest
    else if seg = ['.', '.'] then
      match stack with
      | [] => if rooted then cleanStack rooted [] rest
              else cleanStack rooted [['.', '.']] rest
      | top :: stk =>
        if top = ['.', '.'] then cleanStack rooted (seg :: top :: stk) rest
        else cleanStack rooted stk rest
    else cleanStack rooted (seg :: stack) rest

/-- Go path.Clean. -/
def goPathClean (p : Str) : Str :=
  if p = [] then ['.']
  else
    let segs := cleanStack (isRooted p) [] (splitC '/' p)
    if segs = [] then (if isRooted p then ['/'] else ['.'])
    else (if isRooted p then '/' :: joinC '/' segs else joinC '/' segs)

/-- Go path.Join for two elements: empty elements before the first
non-empty one are skipped, the rest are joined with "/" and cleaned;
all-empty input yields the empty string. -/
def goPathJoin2 (a b : Str) : Str :=
  if a = [] ∧ b = [] then []
  else if a = [] then goPathClean b
  else goPathClean (a ++ '/' :: b)

/-- Go parseS3Uri (s3wrapper/s3.go): split the URI on "/"; the component
at index 2 is the bucket, the remainder re-joined with "/" is the key or
key prefix.  (The Go code indexes parts 2 unchecked; every URI matching
s3:// has at least three components.) -/
def parseS3Uri (s3Uri : Str) : Str × Str :=
  let parts := splitC '/' s3Uri
  (parts.getD 2 [], joinC '/' (parts.drop 3))

/-- Go FormatS3Uri (s3wrapper/s3.go): "s3://" followed by
path.Join(bucket, key). -/
def FormatS3Uri (bucket key : Str) : Str :=
  's' :: '3' :: ':' :: '/' :: '/' :: goPathJoin2 bucket key

/-- A URI s3://bucket/seg1/.../segN assembled from its components
(for segs = [] this is s3://bucket with no trailing slash). -/
def mkUri (bucket : Str) (segs : List Str) : Str :=
  joinC '/' ([['s', '3', ':'], []] ++ bucket :: segs)

theorem mkUri_eq (bucket : Str) (segs : List Str) :
    mkUri bucket segs = 's' :: '3' :: ':' :: '/' :: '/' :: joinC '/' (bucket :: segs) := by
  unfold mkUri
  rw [List.cons_append, List.cons_append, List.nil_append,
    joinC_cons _ _ _ (by simp), joinC_cons _ _ _ (by simp)]
  rfl

/-- cleanStack leaves a list of ordinary segments (non-empty, not "." or
"..") untouched, appending it after the pending stack. -/
theorem cleanStack_ordinary (rooted : Bool) (segs : List Str) (stack : List Str)
    (h : ∀ s ∈ segs, s ≠ [] ∧ s ≠ ['.'] ∧ s ≠ ['.', '.']) :
    cleanStack rooted stack segs = stack.reverse ++ segs := by
  induction segs generalizing stack with
  | nil => simp [cleanStack]
  | cons s rest ih =>
    obtain ⟨h1, h2, h3⟩ := h s (List.mem_cons_self s rest)
    simp only [cleanStack, h1, h2, h3, or_self, if_false]
    rw [ih _ (fun x hx => h x (List.mem_cons_of_mem s hx))]
    simp

theorem goPathClean_ordinary (b : Str) (segs : List Str)
    (hb0 : b ≠ []) (hbs : '/' ∉ b) (hbd : b ≠ ['.']) (hbdd : b ≠ ['.', '.'])
    (hsegs : ∀ s ∈ segs, s ≠ [] ∧ s ≠ ['.'] ∧ s ≠ ['.', '.'] ∧ '/' ∉ s) :
    goPathClean (b ++ '/' :: joinC '/' segs) = joinC '/' (b :: segs) := by
  obtain ⟨hd, tl, rfl⟩ : ∃ hd tl, b = hd :: tl := by
    cases b with
    | nil => exact absurd rfl hb0
    | cons hd tl => exact ⟨hd, tl, rfl⟩
  have hhd : hd ≠ '/' := by
    intro h; exact hbs (h ▸ List.mem_cons_self hd tl)
  have hroot : isRooted ((hd :: tl) ++ '/' :: joinC '/' segs) = false := by
    simp [isRooted, hhd]
  have hne : (hd :: tl) ++ '/' :: joinC '/' segs ≠ [] := by simp
  cases segs with
  | nil =>
    have hsplit : splitC '/' ((hd :: tl) ++ '/' :: joinC '/' ([] : List Str)) =
        [hd :: tl, []] := by
      simp only [joinC]
      have : (hd :: tl) ++ ['/'] = joinC '/' [hd :: tl, []] := by
        rw [joinC_cons _ _ _ (by simp)]; rfl
      rw [this]
      exact splitC_joinC '/' [hd :: tl, []] (by simp)
        (by
          intro p hp
          rcases List.mem_cons.mp hp with h | h
          · exact h ▸ hbs
          · simp only [List.mem_singleton] at h
            simp [h])
    unfold goPathClean
    simp only [hne, if_false, hroot, hsplit]
    have hclean : cleanStack false [] [hd :: tl, []] = [hd :: tl] := by
      have h1 : (hd :: tl) ≠ [] := by simp
      simp only [cleanStack, h1, hbd, hbdd, or_self, if_false, List.cons_ne_nil,
        if_true, or_false, or_true, if_pos rfl]
      rfl
    simp only [hclean]
    simp [joinC]
  | cons s ss =>
    have hjoin : (hd :: tl) ++ '/' :: joinC '/' (s :: ss) =
        joinC '/' ((hd :: tl) :: s :: ss) := by
      rw [joinC_cons '/' (hd :: tl) (s :: ss) (by simp)]
    have hsplit : splitC '/' (joinC '/' ((hd :: tl) :: s :: ss)) =
        (hd :: tl) :: s :: ss := by
      apply splitC_joinC '/' _ (by simp)
      intro p hp
      rcases List.mem_cons.mp hp with h | h
      · exact h ▸ hbs
      · exact (hsegs p h).2.2.2
    have hclean : cleanStack false [] ((hd :: tl) :: s :: ss) = (hd :: tl) :: s :: ss := by
      rw [cleanStack_ordinary false _ []]
      · simp
      · intro x hx
        rcases List.mem_cons.mp hx with h | h
        · exact h ▸ ⟨by simp, hbd, hbdd⟩
        · obtain ⟨a1, a2, a3, _⟩ := hsegs x h
          exact ⟨a1, a2, a3⟩
    unfold goPathClean
    rw [hjoin] at hroot hne ⊢
    simp only [hne, if_false, hroot, hsplit, hclean]
    simp

/-- C3: URI round-trip.  For every canonical URI s3://bucket/seg1/.../segN
(bucket non-empty, each segment non-empty and delimiter-free, no "." or
".." components) formatting the result of parsing reproduces the URI
exactly; in particular an empty prefix (N = 0) is preserved and no
trailing slash is added. -/
theorem c3_uri_roundtrip (b : Str) (segs : List Str)
    (hb0 : b ≠ []) (hbs : '/' ∉ b) (hbd : b ≠ ['.']) (hbdd : b ≠ ['.', '.'])
    (hsegs : ∀ s ∈ segs, s ≠ [] ∧ s ≠ ['.'] ∧ s ≠ ['.', '.'] ∧ '/' ∉ s) :
    FormatS3Uri (parseS3Uri (mkUri b segs)).1 (parseS3Uri (mkUri b segs)).2 =
      mkUri b segs := by
  have hsplit : splitC '/' (mkUri b segs) = [['s', '3', ':'], []] ++ b :: segs := by
    unfold mkUri
    apply splitC_joinC '/' _ (by simp)
    intro p hp
    simp only [List.cons_append, List.nil_append, List.mem_cons] at hp
    rcases hp with h | h | h | h
    · subst h; decide
    · subst h; simp
    · exact h ▸ hbs
    · exact (hsegs p h).2.2.2
  have hparse : parseS3Uri (mkUri b segs) = (b, joinC '/' segs) := by
    unfold parseS3Uri
    rw [hsplit]
    simp [List.getD]
  rw [hparse]
  simp only
  unfold FormatS3Uri goPathJoin2
  simp only [hb0, false_and, if_false]
  rw [goPathClean_ordinary b segs hb0 hbs hbd hbdd hsegs, mkUri_eq]

/-- C3 witness: the round-trip theorem applied to the concrete URI
s3://demo/a/x and to s3://demo (empty prefix). -/
theorem c3_witness :
    (FormatS3Uri (parseS3Uri (mkUri ['d', 'e', 'm', 'o'] [['a'], ['x']])).1
        (parseS3Uri (mkUri ['d', 'e', 'm', 'o'] [['a'], ['x']])).2 =
      mkUri ['d', 'e', 'm', 'o'] [['a'], ['x']]) ∧
    (FormatS3Uri (parseS3Uri (mkUri ['d', 'e', 'm', 'o'] [])).1
        (parseS3Uri (mkUri ['d', 'e', 'm', 'o'] [])).2 =
      mkUri ['d', 'e', 'm', 'o'] []) :=
  ⟨c3_uri_roundtrip ['d', 'e', 'm', 'o'] [['a'], ['x']] (by decide) (by decide)
      (by decide) (by decide) (by decide),
    c3_uri_roundtrip ['d', 'e', 'm', 'o'] [] (by decide) (by decide)
      (by decide) (by decide) (by decide)⟩

/-! The batched-delete worker (DeleteObjects in s3wrapper/s3.go).
Each worker drains the shared channel; the sequence of items one worker
consumes is modelled as a list, and the requests it issues as the result
list.  A request records its Bucket parameter, the accumulated object
keys, and the cached ListOutput items flushed with it. -/

/-- An item as seen by the delete worker: the relevant ListOutput fields. -/
structure DItem where
  isPfx : Bool
  bucket : Str
  key : Str
deriving DecidableEq

/-- One issued delete-objects request: the Bucket parameter, the object
keys of the request body, and the listOutCache items emitted after it. -/
structure DReq where
  bucket : Str
  keys : List Str
  items : List DItem
deriving DecidableEq

/-- Worker-local state: params.Bucket, objects, listOutCache. -/
structure DState where
  bucket : Str
  objects : List Str
  cache : List DItem
deriving DecidableEq

/-- Constant maxKeysPerDeleteObjectsRequest from s3wrapper/s3.go. -/
def maxKeysPerDeleteObjectsRequest : Nat := 1000

def flushReq (s : DState) : DReq := ⟨s.bucket, s.objects, s.cache⟩

/-- The delete worker loop: skip prefix items; the first item (or the
first after a flush) sets params.Bucket from the empty-string sentinel;
flush when the buffer holds maxKeysPerDeleteObjectsRequest objects or the
item's bucket differs from params.Bucket; a final flush on channel close
when the buffer is non-empty. -/
def deleteWorkerGo : DState → List DItem → List DReq
  | s, [] => if 0 < s.objects.length then [flushReq s] else []
  | s, item :: rest =>
    if item.isPfx then deleteWorkerGo s rest
    else
      let s1 := if s.bucket = [] then { s with bucket := item.bucket } else s
      if maxKeysPerDeleteObjectsRequest ≤ s1.objects.length ∨ s1.bucket ≠ item.bucket then
        flushReq s1 :: deleteWorkerGo ⟨item.bucket, [item.key], [item]⟩ rest
      else
        deleteWorkerGo
          { s1 with objects := s1.objects ++ [item.key], cache := s1.cache ++ [item] } rest

/-- Initial worker state: params.Bucket is the empty string, buffers empty. -/
def dInit : DState := ⟨[], [], []⟩

/-- The requests one delete worker issues for a consumed item sequence. -/
def deleteRequests (items : List DItem) : List DReq := deleteWorkerGo dInit items

/-- The state invariant maintained by the delete worker. -/
def DInv (s : DState) : Prop :=
  s.objects = s.cache.map DItem.key ∧
  s.objects.length ≤ maxKeysPerDeleteObjectsRequest ∧
  (s.bucket = [] → s.cache = []) ∧
  ∀ it ∈ s.cache, it.isPfx = false ∧ it.bucket = s.bucket

/-- Every request a delete worker issues from an invariant-respecting state
is bounded and single-bucket, provided no consumed item carries the empty
bucket name (the worker's unset sentinel); moreover the flushed caches
partition the consumed non-prefix items in order. -/
theorem deleteWorkerGo_sound (items : List DItem) : ∀ (s : DState), DInv s →
    (∀ it ∈ items, it.bucket ≠ []) →
    (∀ r ∈ deleteWorkerGo s items,
        r.keys.length ≤ maxKeysPerDeleteObjectsRequest ∧
        r.keys = r.items.map DItem.key ∧
        ∀ it ∈ r.items, it.isPfx = false ∧ it.bucket = r.bucket) ∧
    (deleteWorkerGo s items).flatMap DReq.items =
      s.cache ++ items.filter (fun it => !it.isPfx) := by
  induction items with
  | nil =>
    intro s hinv _
    obtain ⟨hmap, hlen, _, hcache⟩ := hinv
    constructor
    · intro r hr
      simp only [deleteWorkerGo] at hr
      by_cases h : 0 < s.objects.length
      · simp only [h, if_true, List.mem_singleton] at hr
        subst hr
        exact ⟨hlen, hmap, hcache⟩
      · simp [h] at hr
    · simp only [deleteWorkerGo]
      by_cases h : 0 < s.objects.length
      · simp only [h, if_true]
        simp [flushReq]
      · simp only [h, if_false]
        have : s.cache = [] := by
          rw [hmap] at h
          simp only [List.length_map, not_lt, Nat.le_zero] at h
          exact List.eq_nil_of_length_eq_zero h
        simp [this]
  | cons item rest ih =>
    intro s hinv hbuckets
    have hbrest : ∀ it ∈ rest, it.bucket ≠ [] :=
      fun it h => hbuckets it (List.mem_cons_of_mem item h)
    by_cases hpfx : item.isPfx
    · have heq : deleteWorkerGo s (item :: rest) = deleteWorkerGo s rest := by
        simp [deleteWorkerGo, hpfx]
      rw [heq]
      obtain ⟨h1, h2⟩ := ih s hinv hbrest
      refine ⟨h1, ?_⟩
      rw [h2]
      simp [hpfx]
    · obtain ⟨hmap, hlen, hsentinel, hcache⟩ := hinv
      have hib : item.bucket ≠ [] := hbuckets item (List.mem_cons_self item rest)
      -- the state after the sentinel assignment
      set s1 := if s.bucket = [] then { s with bucket := item.bucket } else s with hs1
      have hs1map : s1.objects = s1.cache.map DItem.key := by
        by_cases h : s.bucket = [] <;> simp [hs1, h, hmap]
      have hs1len : s1.objects.length ≤ maxKeysPerDeleteObjectsRequest := by
        by_cases h : s.bucket = [] <;> simp [hs1, h, hlen]
      have hs1cache : ∀ it ∈ s1.cache, it.isPfx = false ∧ it.bucket = s1.bucket := by
        by_cases h : s.bucket = []
        · simp only [hs1, h, if_true]
          intro it hit
          rw [hsentinel h] at hit
          simp at hit
        · simp only [hs1, h, if_false]
          exact hcache
      by_cases hflush :
          maxKeysPerDeleteObjectsRequest ≤ s1.objects.length ∨ s1.bucket ≠ item.bucket
      · have heq : deleteWorkerGo s (item :: rest) =
            flushReq s1 :: deleteWorkerGo ⟨item.bucket, [item.key], [item]⟩ rest := by
          simp only [deleteWorkerGo, hpfx, if_false]
          rw [← hs1]
          simp only [hflush, if_true]
          simp
        rw [heq]
        have hinv2 : DInv ⟨item.bucket, [item.key], [item]⟩ := by
          refine ⟨by simp, by simp [maxKeysPerDeleteObjectsRequest], ?_, ?_⟩
          · intro h; exact absurd h hib
          · intro it hit
            simp only [List.mem_singleton] at hit
            subst hit
            exact ⟨by simpa using hpfx, rfl⟩
        obtain ⟨h1, h2⟩ := ih ⟨item.bucket, [item.key], [item]⟩ hinv2 hbrest
        constructor
        · intro r hr
          rcases List.mem_cons.mp hr with h | h
          · subst h
            exact ⟨hs1len, hs1map, hs1cache⟩
          · exact h1 r h
        · simp only [List.flatMap_cons, h2, flushReq]
          have hs1c : s1.cache = s.cache := by
            by_cases h : s.bucket = [] <;> simp [hs1, h]
          rw [hs1c]
          simp [hpfx]
      · have heq : deleteWorkerGo s (item :: rest) =
            deleteWorkerGo
              { s1 with objects := s1.objects ++ [item.key],
                        cache := s1.cache ++ [item] } rest := by
          simp only [deleteWorkerGo, hpfx, if_false]
          rw [← hs1]
          simp only [hflush, if_false]
          simp
        rw [heq]
        push_neg at hflush
        obtain ⟨hnotfull, hsame⟩ := hflush
        have hinv2 : DInv
            { s1 with objects := s1.objects ++ [item.key], cache := s1.cache ++ [item] } := by
          refine ⟨by simp [hs1map], by simpa using hnotfull, ?_, ?_⟩
          · intro h
            simp only at h
            rw [h] at hsame
            exact absurd hsame.symm hib
          · intro it hit
            simp only [List.mem_append, List.mem_singleton] at hit
            rcases hit with h | h
            · exact hs1cache it h
            · subst h
              exact ⟨by simpa using hpfx, hsame.symm⟩
        obtain ⟨h1, h2⟩ := ih _ hinv2 hbrest
        refine ⟨h1, ?_⟩
        rw [h2]
        have hs1c : s1.cache = s.cache := by
          by_cases h : s.bucket = [] <;> simp [hs1, h]
        simp only [hs1c]
        simp [hpfx]

/-- C1 (amended): provided every consumed non-prefix item carries a
non-empty bucket name, each request issued by a delete worker holds at
most 1000 keys, all of them belonging to cached items of the request's
single bucket, and the flushed caches partition the consumed non-prefix
items in order (the last flush on channel close included). -/
theorem c1_delete_requests_bounded_single_bucket (items : List DItem)
    (hbuckets : ∀ it ∈ items, it.bucket ≠ []) :
    (∀ r ∈ deleteRequests items,
        r.keys.length ≤ maxKeysPerDeleteObjectsRequest ∧
        r.keys = r.items.map DItem.key ∧
        ∀ it ∈ r.items, it.isPfx = false ∧ it.bucket = r.bucket) ∧
    (deleteRequests items).flatMap DReq.items = items.filter (fun it => !it.isPfx) := by
  have h := deleteWorkerGo_sound items dInit
    ⟨rfl, by simp [dInit, maxKeysPerDeleteObjectsRequest], fun _ => rfl, by simp [dInit]⟩
    hbuckets
  simpa [deleteRequests, dInit] using h

/-- C1 witness: the amended theorem applied to a concrete two-bucket
sequence of three non-prefix items. -/
theorem c1_witness :
    (∀ it ∈ [DItem.mk false ['a'] ['x'], DItem.mk false ['a'] ['y'],
        DItem.mk false ['b'] ['z']], it.bucket ≠ []) ∧
    (∀ r ∈ deleteRequests [DItem.mk false ['a'] ['x'], DItem.mk false ['a'] ['y'],
        DItem.mk false ['b'] ['z']],
        r.keys.length ≤ maxKeysPerDeleteObjectsRequest ∧
        r.keys = r.items.map DItem.key ∧
        ∀ it ∈ r.items, it.isPfx = false ∧ it.bucket = r.bucket) :=
  ⟨by decide,
    (c1_delete_requests_bounded_single_bucket _ (by decide)).1⟩

/-- C1 counterexample: with an item whose bucket is the empty string (the
worker's own unset sentinel), a single request mixes keys of two distinct
buckets, so the claim without the non-empty-bucket proviso is false. -/
theorem c1_counterexample :
    ¬ (∀ r ∈ deleteRequests [DItem.mk false ['a'] ['x'], DItem.mk false [] ['y'],
        DItem.mk false ['b'] ['z']],
        ∀ it ∈ r.items, it.bucket = r.bucket) := by
  decide

/-! Request counting for the delete worker (claim C2). -/

/-- The items of one bucket run: non-prefix items sharing one bucket. -/
def runItems (b : Str) (ks : List Str) : List DItem :=
  ks.map fun k => ⟨false, b, k⟩

/-- The item sequence obtained by concatenating bucket runs. -/
def runsItems (runs : List (Str × List Str)) : List DItem :=
  (runs.map fun r => runItems r.1 r.2).flatten

/-- The request sizes produced for m keys of one bucket: full groups of
1000 followed by the remainder group. -/
def chunkSizes (m : Nat) : List Nat :=
  if m = 0 then []
  else List.replicate ((m - 1) / maxKeysPerDeleteObjectsRequest)
      maxKeysPerDeleteObjectsRequest ++
    [(m - 1) % maxKeysPerDeleteObjectsRequest + 1]

/-- Request sizes emitted from a buffer of l keys while consuming n more
keys of the same bucket, final flush included. -/
def sizesFrom : Nat → Nat → List Nat
  | l, 0 => [l]
  | l, n + 1 =>
    if maxKeysPerDeleteObjectsRequest ≤ l then
      maxKeysPerDeleteObjectsRequest :: sizesFrom 1 n
    else sizesFrom (l + 1) n

theorem sizesFrom_eq_chunkSizes (n : Nat) : ∀ l, 1 ≤ l →
    l ≤ maxKeysPerDeleteObjectsRequest → sizesFrom l n = chunkSizes (l + n) := by
  induction n with
  | zero =>
    intro l h1 h2
    simp only [sizesFrom, chunkSizes, maxKeysPerDeleteObjectsRequest] at *
    have he : ¬ l + 0 = 0 := by omega
    simp only [he, if_false]
    have hd : (l + 0 - 1) / 1000 = 0 := by omega
    have hm : (l + 0 - 1) % 1000 + 1 = l := by omega
    rw [hd, hm]
    simp
  | succ n ih =>
    intro l h1 h2
    simp only [sizesFrom]
    by_cases hge : maxKeysPerDeleteObjectsRequest ≤ l
    · have hl : l = maxKeysPerDeleteObjectsRequest := Nat.le_antisymm h2 hge
      simp only [hge, if_true, ih 1 (by omega) (by simp [maxKeysPerDeleteObjectsRequest])]
      subst hl
      simp only [chunkSizes, maxKeysPerDeleteObjectsRequest] at *
      have h0 : ¬ (1 + n = 0) := by omega
      have h0t : ¬ (1000 + (n + 1) = 0) := by omega
      simp only [h0, h0t, if_false]
      have hd : (1000 + (n + 1) - 1) / 1000 = (1 + n - 1) / 1000 + 1 := by omega
      have hm : (1000 + (n + 1) - 1) % 1000 = (1 + n - 1) % 1000 := by omega
      rw [hd, hm, List.replicate_succ]
      simp
    · simp only [hge, if_false, ih (l + 1) (by omega) (by omega)]
      have : l + 1 + n = l + (n + 1) := by omega
      rw [this]

theorem chunkSizes_length (m : Nat) (h : m ≠ 0) :
    (chunkSizes m).length = (m - 1) / maxKeysPerDeleteObjectsRequest + 1 := by
  simp [chunkSizes, h]

/-- Stepping lemma: a non-prefix item arriving at a worker whose bucket is
set triggers a flush exactly when the buffer is full or the bucket
changes. -/
theorem deleteWorkerGo_step_flush (s : DState) (item : DItem) (rest : List DItem)
    (hpfx : item.isPfx = false) (hb : s.bucket ≠ [])
    (hcond : maxKeysPerDeleteObjectsRequest ≤ s.objects.length ∨ s.bucket ≠ item.bucket) :
    deleteWorkerGo s (item :: rest) =
      flushReq s :: deleteWorkerGo ⟨item.bucket, [item.key], [item]⟩ rest := by
  simp only [deleteWorkerGo, hpfx, Bool.false_eq_true, if_false, hb, if_neg, hcond, if_true]

theorem deleteWorkerGo_step_append (s : DState) (item : DItem) (rest : List DItem)
    (hpfx : item.isPfx = false) (hb : s.bucket ≠ [])
    (hcond : ¬(maxKeysPerDeleteObjectsRequest ≤ s.objects.length ∨ s.bucket ≠ item.bucket)) :
    deleteWorkerGo s (item :: rest) =
      deleteWorkerGo ⟨s.bucket, s.objects ++ [item.key], s.cache ++ [item]⟩ rest := by
  simp only [deleteWorkerGo, hpfx, Bool.false_eq_true, if_false, hb, if_neg, hcond]

/-- Processing one bucket run from a mid-batch state: the worker emits a
sequence of full batches whose sizes, together with the final pending
buffer, are given by sizesFrom. -/
theorem deleteWorkerGo_run (b : Str) (hb : b ≠ []) (ks : List Str) :
    ∀ (objs : List Str) (cache : List DItem) (rest : List DItem),
    objs ≠ [] → objs.length ≤ maxKeysPerDeleteObjectsRequest →
    ∃ mid objs2 cache2,
      deleteWorkerGo ⟨b, objs, cache⟩ (runItems b ks ++ rest) =
        mid ++ deleteWorkerGo ⟨b, objs2, cache2⟩ rest ∧
      mid.map (fun r => r.keys.length) ++ [objs2.length] =
        sizesFrom objs.length ks.length ∧
      objs2 ≠ [] ∧ objs2.length ≤ maxKeysPerDeleteObjectsRequest := by
  induction ks with
  | nil =>
    intro objs cache rest h1 h2
    exact ⟨[], objs, cache, by simp [runItems], by simp [sizesFrom], h1, h2⟩
  | cons k ks2 ih =>
    intro objs cache rest h1 h2
    have hitem : runItems b (k :: ks2) ++ rest =
        (⟨false, b, k⟩ : DItem) :: (runItems b ks2 ++ rest) := by
      simp [runItems]
    rw [hitem]
    by_cases hge : maxKeysPerDeleteObjectsRequest ≤ objs.length
    · rw [deleteWorkerGo_step_flush ⟨b, objs, cache⟩ ⟨false, b, k⟩ _ rfl hb (Or.inl hge)]
      obtain ⟨mid, objs2, cache2, he, hs, h3, h4⟩ :=
        ih [k] [⟨false, b, k⟩] rest (by simp) (by simp [maxKeysPerDeleteObjectsRequest])
      refine ⟨flushReq ⟨b, objs, cache⟩ :: mid, objs2, cache2, ?_, ?_, h3, h4⟩
      · rw [he]; rfl
      · have hl : objs.length = maxKeysPerDeleteObjectsRequest := Nat.le_antisymm h2 hge
        simp only [List.map_cons, flushReq, List.cons_append, hs]
        simp only [List.length_cons, sizesFrom, hge, if_true, hl]
        simp
    · rw [deleteWorkerGo_step_append ⟨b, objs, cache⟩ ⟨false, b, k⟩ _ rfl hb
        (by simp only [not_or, not_not]; exact ⟨hge, trivial⟩)]
      obtain ⟨mid, objs2, cache2, he, hs, h3, h4⟩ :=
        ih (objs ++ [k]) (cache ++ [⟨false, b, k⟩]) rest (by simp)
          (by simp only [List.length_append, List.length_cons, List.length_nil]; omega)
      refine ⟨mid, objs2, cache2, he, ?_, h3, h4⟩
      rw [hs]
      simp only [List.length_append, List.length_cons, List.length_nil, List.length_map]
      simp only [List.length_cons, sizesFrom, hge, if_false]

/-- Processing a sequence of bucket runs from a mid-batch state: the
request sizes are the pending buffer followed by each run's chunk sizes. -/
theorem deleteWorkerGo_runs (runs : List (Str × List Str)) :
    ∀ (b : Str) (objs : List Str) (cache : List DItem),
    (∀ r ∈ runs, r.1 ≠ [] ∧ r.2 ≠ []) →
    List.Chain' (· ≠ ·) (b :: runs.map Prod.fst) →
    b ≠ [] → objs ≠ [] → objs.length ≤ maxKeysPerDeleteObjectsRequest →
    (deleteWorkerGo ⟨b, objs, cache⟩ (runsItems runs)).map (fun r => r.keys.length) =
      objs.length :: (runs.map (fun r => chunkSizes r.2.length)).flatten := by
  induction runs with
  | nil =>
    intro b objs cache _ _ _ h1 _
    have : 0 < objs.length := List.length_pos.mpr h1
    simp [runsItems, deleteWorkerGo, this, flushReq]
  | cons run runs2 ih =>
    intro b objs cache hruns hchain hb h1 h2
    obtain ⟨b2, ks⟩ := run
    obtain ⟨hb2, hks⟩ := hruns (b2, ks) (List.mem_cons_self _ _)
    simp only at hb2 hks
    obtain ⟨k, ks2, rfl⟩ : ∃ k ks2, ks = k :: ks2 := by
      cases ks with
      | nil => exact absurd rfl hks
      | cons k ks2 => exact ⟨k, ks2, rfl⟩
    have hbne : b ≠ b2 := by
      have := hchain.rel_head
      simpa using this
    have hitems : runsItems ((b2, k :: ks2) :: runs2) =
        (⟨false, b2, k⟩ : DItem) :: (runItems b2 ks2 ++ runsItems runs2) := by
      simp [runsItems, runItems]
    rw [hitems]
    rw [deleteWorkerGo_step_flush ⟨b, objs, cache⟩ ⟨false, b2, k⟩ _ rfl hb (Or.inr hbne)]
    obtain ⟨mid, objs2, cache2, he, hs, h3, h4⟩ :=
      deleteWorkerGo_run b2 hb2 ks2 [k] [⟨false, b2, k⟩] (runsItems runs2)
        (by simp) (by simp [maxKeysPerDeleteObjectsRequest])
    simp only [List.length_singleton] at hs
    rw [he]
    have hrec := ih b2 objs2 cache2
      (fun r hr => hruns r (List.mem_cons_of_mem _ hr))
      (by
        have := hchain.tail
        simpa using this)
      hb2 h3 h4
    simp only [List.map_cons, List.map_append, hrec, flushReq]
    have : mid.map (fun r => r.keys.length) ++ objs2.length ::
        (runs2.map (fun r => chunkSizes r.2.length)).flatten =
        (mid.map (fun r => r.keys.length) ++ [objs2.length]) ++
          (runs2.map (fun r => chunkSizes r.2.length)).flatten := by
      simp
    rw [this, hs, sizesFrom_eq_chunkSizes ks2.length 1 (by omega)
      (by simp [maxKeysPerDeleteObjectsRequest])]
    simp only [List.flatten]
    have hlen : 1 + ks2.length = (k :: ks2).length := by simp [Nat.add_comm]
    rw [hlen]

/-- The first non-prefix item a worker consumes sets the bucket from the
empty-string sentinel and starts the first batch without a flush. -/
theorem deleteWorkerGo_step_first (item : DItem) (rest : List DItem)
    (hpfx : item.isPfx = false) :
    deleteWorkerGo dInit (item :: rest) =
      deleteWorkerGo ⟨item.bucket, [item.key], [item]⟩ rest := by
  simp [deleteWorkerGo, dInit, hpfx, maxKeysPerDeleteObjectsRequest]

/-- The sizes of the requests a single delete worker issues for a
bucket-grouped input are exactly each run's chunk sizes in order. -/
theorem deleteRequests_sizes (runs : List (Str × List Str))
    (hruns : ∀ r ∈ runs, r.1 ≠ [] ∧ r.2 ≠ [])
    (hchain : List.Chain' (· ≠ ·) (runs.map Prod.fst)) :
    (deleteRequests (runsItems runs)).map (fun r => r.keys.length) =
      (runs.map (fun r => chunkSizes r.2.length)).flatten := by
  cases runs with
  | nil => simp [deleteRequests, runsItems, deleteWorkerGo, dInit]
  | cons run runs2 =>
    obtain ⟨b1, ks⟩ := run
    obtain ⟨hb1, hks⟩ := hruns (b1, ks) (List.mem_cons_self _ _)
    simp only at hb1 hks
    obtain ⟨k, ks2, rfl⟩ : ∃ k ks2, ks = k :: ks2 := by
      cases ks with
      | nil => exact absurd rfl hks
      | cons k ks2 => exact ⟨k, ks2, rfl⟩
    have hitems : runsItems ((b1, k :: ks2) :: runs2) =
        (⟨false, b1, k⟩ : DItem) :: (runItems b1 ks2 ++ runsItems runs2) := by
      simp [runsItems, runItems]
    unfold deleteRequests
    rw [hitems, deleteWorkerGo_step_first ⟨false, b1, k⟩ _ rfl]
    obtain ⟨mid, objs2, cache2, he, hs, h3, h4⟩ :=
      deleteWorkerGo_run b1 hb1 ks2 [k] [⟨false, b1, k⟩] (runsItems runs2)
        (by simp) (by simp [maxKeysPerDeleteObjectsRequest])
    simp only [List.length_singleton] at hs
    rw [he]
    have hrec := deleteWorkerGo_runs runs2 b1 objs2 cache2
      (fun r hr => hruns r (List.mem_cons_of_mem _ hr))
      (by simpa using hchain)
      hb1 h3 h4
    simp only [List.map_cons, List.map_append, hrec]
    have hassoc : mid.map (fun r => r.keys.length) ++ objs2.length ::
        (runs2.map (fun r => chunkSizes r.2.length)).flatten =
        (mid.map (fun r => r.keys.length) ++ [objs2.length]) ++
          (runs2.map (fun r => chunkSizes r.2.length)).flatten := by
      simp
    rw [hassoc, hs, sizesFrom_eq_chunkSizes ks2.length 1 (by omega)
      (by simp [maxKeysPerDeleteObjectsRequest])]
    simp only [List.flatten]
    have hlen : 1 + ks2.length = (k :: ks2).length := by simp [Nat.add_comm]
    rw [hlen]

theorem runsItems_length (runs : List (Str × List Str)) :
    (runsItems runs).length = (runs.map (fun r => r.2.length)).sum := by
  induction runs with
  | nil => simp [runsItems]
  | cons run runs2 ih =>
    simp only [runsItems, List.map_cons, List.flatten, List.length_append, List.sum_cons]
    simp only [runsItems] at ih
    rw [ih, runItems]
    simp

theorem chunk_count_bounds (runs : List (Str × List Str))
    (h : ∀ r ∈ runs, r.2 ≠ []) :
    runs.length ≤ ((runs.map fun r => chunkSizes r.2.length).flatten).length ∧
    ((runs.map fun r => chunkSizes r.2.length).flatten).length ≤
      runs.length + (runs.map (fun r => r.2.length)).sum / maxKeysPerDeleteObjectsRequest := by
  induction runs with
  | nil => simp
  | cons run runs2 ih =>
    obtain ⟨ihl, ihu⟩ := ih (fun r hr => h r (List.mem_cons_of_mem _ hr))
    have hm : run.2.length ≠ 0 := by
      have := h run (List.mem_cons_self _ _)
      simpa [List.length_eq_zero] using this
    have hcl := chunkSizes_length run.2.length hm
    simp only [List.map_cons, List.flatten, List.length_append, List.length_cons,
      List.sum_cons, hcl] at *
    simp only [maxKeysPerDeleteObjectsRequest] at *
    omega

/-- C2 (amended): for a bucket-grouped input of K runs over distinct
non-empty buckets consumed by a single delete worker, the issued request
sizes are each run's groups of 1000 plus remainder, and the number of
requests lies between K and K + M/1000 where M is the total key count. -/
theorem c2_delete_request_counts (runs : List (Str × List Str))
    (hruns : ∀ r ∈ runs, r.1 ≠ [] ∧ r.2 ≠ [])
    (hdist : List.Pairwise (· ≠ ·) (runs.map Prod.fst)) :
    (deleteRequests (runsItems runs)).map (fun r => r.keys.length) =
      (runs.map (fun r => chunkSizes r.2.length)).flatten ∧
    runs.length ≤ (deleteRequests (runsItems runs)).length ∧
    (deleteRequests (runsItems runs)).length ≤
      runs.length + (runsItems runs).length / maxKeysPerDeleteObjectsRequest := by
  have hsizes := deleteRequests_sizes runs hruns hdist.chain'
  have hcount : (deleteRequests (runsItems runs)).length =
      ((runs.map fun r => chunkSizes r.2.length).flatten).length := by
    rw [← hsizes, List.length_map]
  obtain ⟨hl, hu⟩ := chunk_count_bounds runs (fun r hr => (hruns r hr).2)
  refine ⟨hsizes, ?_, ?_⟩
  · rw [hcount]; exact hl
  · rw [hcount, runsItems_length]; exact hu

/-- C2 witness: the amended theorem applied to two concrete runs with one
and two keys; it issues exactly two requests of sizes 1 and 2. -/
theorem c2_witness :
    (∀ r ∈ [((['a'] : Str), [(['x'] : Str)]), (['b'], [['y'], ['z']])],
        r.1 ≠ [] ∧ r.2 ≠ []) ∧
    (deleteRequests (runsItems [((['a'] : Str), [(['x'] : Str)]), (['b'], [['y'], ['z']])])).map
        (fun r => r.keys.length) =
      ([((['a'] : Str), [(['x'] : Str)]), (['b'], [['y'], ['z']])].map
        (fun r => chunkSizes r.2.length)).flatten :=
  ⟨by decide,
    (c2_delete_request_counts [((['a'] : Str), [(['x'] : Str)]), (['b'], [['y'], ['z']])]
      (by decide) (by decide)).1⟩

/-- C2 counterexample: a single worker consuming four keys that alternate
between two buckets issues four requests, exceeding the claimed bound
K + M/1000 = 2; the claimed upper bound fails for non-grouped inputs. -/
theorem c2_counterexample :
    ¬ ((deleteRequests [DItem.mk false ['a'] ['1'], DItem.mk false ['b'] ['2'],
        DItem.mk false ['a'] ['3'], DItem.mk false ['b'] ['4']]).length ≤
      2 + 4 / maxKeysPerDeleteObjectsRequest) := by
  decide

/-! The listing fanout (List in s3wrapper/s3.go, current version).
Server pages are abstract inputs; URL-unescaping (url.QueryUnescape,
which falls back to the original string on error) and the compiled key
regex (a string predicate) are abstract parameters. -/

/-- One object record of a server list page. -/
structure PageObj where
  key : Str
  size : Int
  lastModified : Int
deriving DecidableEq

/-- One server list page: common prefixes and object contents. -/
structure Page where
  commonPfxs : List Str
  contents : List PageObj
deriving DecidableEq

/-- The normalised record flowing through every pipeline (ListOutput in
s3wrapper/s3.go). -/
structure ListOutput where
  isPfx : Bool
  size : Int
  key : Str
  lastModified : Int
  bucket : Str
  fullKey : Str
deriving DecidableEq

/-- url.QueryUnescape with the code's fallback: on error the escaped
original is used. -/
def unescapeOr (unesc : Str → Option Str) (s : Str) : Str := (unesc s).getD s

/-- The page callback of List: common prefixes not equal to the delimiter
are emitted unfiltered; contents are unescaped, recomposed to a full key
and dropped when a compiled key regex is present and does not match. -/
def processPage (bucket delim : Str) (filterF : Option (Str → Bool))
    (unesc : Str → Option Str) (page : Page) : List ListOutput :=
  (page.commonPfxs.filterMap fun p =>
    if p ≠ delim then
      some ⟨true, 0, unescapeOr unesc p, 0, bucket,
        FormatS3Uri bucket (unescapeOr unesc p)⟩
    else none) ++
  (page.contents.filterMap fun o =>
    match filterF with
    | some f =>
      if f (FormatS3Uri bucket (unescapeOr unesc o.key)) then
        some ⟨false, o.size, unescapeOr unesc o.key, o.lastModified, bucket,
          FormatS3Uri bucket (unescapeOr unesc o.key)⟩
      else none
    | none =>
      some ⟨false, o.size, unescapeOr unesc o.key, o.lastModified, bucket,
        FormatS3Uri bucket (unescapeOr unesc o.key)⟩)

/-- All items List emits over a sequence of pages. -/
def listEmitted (bucket delim : Str) (filterF : Option (Str → Bool))
    (unesc : Str → Option Str) (pages : List Page) : List ListOutput :=
  (pages.map (processPage bucket delim filterF unesc)).flatten

theorem processPage_obj_filtered (bucket delim : Str) (f : Str → Bool)
    (unesc : Str → Option Str) (page : Page) :
    ∀ item ∈ processPage bucket delim (some f) unesc page,
      item.isPfx = false → f item.fullKey = true := by
  intro item hmem hobj
  simp only [processPage, List.mem_append, List.mem_filterMap] at hmem
  rcases hmem with ⟨p, _, hp⟩ | ⟨o, _, ho⟩
  · by_cases hpd : p ≠ delim
    · rw [if_pos hpd] at hp
      simp only [Option.some_inj] at hp
      rw [← hp] at hobj
      simp at hobj
    · rw [if_neg hpd] at hp
      simp at hp
  · by_cases hf : f (FormatS3Uri bucket (unescapeOr unesc o.key)) = true
    · rw [if_pos hf] at ho
      simp only [Option.some_inj] at ho
      rw [← ho]
      exact hf
    · rw [if_neg hf] at ho
      simp at ho

theorem processPage_pfx_independent (bucket delim : Str)
    (unesc : Str → Option Str) (page : Page)
    (f g : Option (Str → Bool)) :
    (processPage bucket delim f unesc page).filter (fun i => i.isPfx) =
      (processPage bucket delim g unesc page).filter (fun i => i.isPfx) := by
  have hobj : ∀ (h : Option (Str → Bool)),
      ((page.contents.filterMap fun o =>
        match h with
        | some f2 =>
          if f2 (FormatS3Uri bucket (unescapeOr unesc o.key)) then
            some (⟨false, o.size, unescapeOr unesc o.key, o.lastModified, bucket,
              FormatS3Uri bucket (unescapeOr unesc o.key)⟩ : ListOutput)
          else none
        | none =>
          some ⟨false, o.size, unescapeOr unesc o.key, o.lastModified, bucket,
            FormatS3Uri bucket (unescapeOr unesc o.key)⟩)).filter
        (fun i => i.isPfx) = [] := by
    intro h
    rw [List.filter_eq_nil_iff]
    intro item hmem
    simp only [List.mem_filterMap] at hmem
    obtain ⟨o, _, ho⟩ := hmem
    cases h with
    | some f2 =>
      by_cases hf : f2 (FormatS3Uri bucket (unescapeOr unesc o.key)) = true
      · simp only [hf, if_true, Option.some_inj] at ho
        rw [← ho]
        simp
      · simp [hf] at ho
    | none =>
      simp only [Option.some_inj] at ho
      rw [← ho]
      simp
  simp only [processPage, List.filter_append, hobj]

/-- C4: with a non-empty key regex (compiled to the predicate f), every
non-prefix item List emits has a full key accepted by f, and the emitted
prefix items do not depend on the regex at all. -/
theorem c4_regex_filter (bucket delim : Str) (f : Str → Bool)
    (unesc : Str → Option Str) (pages : List Page) :
    (∀ item ∈ listEmitted bucket delim (some f) unesc pages,
        item.isPfx = false → f item.fullKey = true) ∧
    ∀ g, (listEmitted bucket delim (some f) unesc pages).filter (fun i => i.isPfx) =
      (listEmitted bucket delim g unesc pages).filter (fun i => i.isPfx) := by
  constructor
  · intro item hmem hobj
    simp only [listEmitted, List.mem_flatten, List.mem_map] at hmem
    obtain ⟨l, ⟨page, _, rfl⟩, hmem2⟩ := hmem
    exact processPage_obj_filtered bucket delim f unesc page item hmem2 hobj
  · intro g
    induction pages with
    | nil => simp [listEmitted]
    | cons page rest ih =>
      simp only [listEmitted, List.map_cons, List.flatten, List.filter_append]
      simp only [listEmitted] at ih
      rw [ih, processPage_pfx_independent bucket delim unesc page (some f) g]

/-- C4 witness: the theorem applied to one concrete page whose single
object key passes the concrete non-empty-full-key predicate. -/
theorem c4_witness :
    (fun (s : Str) => decide (s ≠ [])) (FormatS3Uri ['b'] ['k']) = true :=
  (c4_regex_filter ['b'] ['/'] (fun s => decide (s ≠ [])) (fun _ => none)
      [⟨[['p', '/']], [⟨['k'], 5, 0⟩]⟩]).1
    ⟨false, 5, ['k'], 0, ['b'], FormatS3Uri ['b'] ['k']⟩ (by decide) rfl

/-! List invocation (claim C10): the regex is compiled with
regexp.MustCompile before any page is requested; compilation is an
abstract partial function, and a compilation failure is the MustCompile
panic. -/

/-- Outcome of invoking List: either the MustCompile panic on an invalid
non-empty key regex, or the emitted items. -/
inductive ListResult where
  | panicked (keyRegex : Str)
  | ok (out : List ListOutput)
deriving DecidableEq

/-- CLI-side URI validation (s3List.Set in main.go): the value must match
the anchored pattern s3://.  It never inspects the key regex. -/
def s3UriValid (s : Str) : Bool :=
  List.isPrefixOf ['s', '3', ':', '/', '/'] s

/-- List (s3wrapper/s3.go): parse the URI, clear the delimiter when
recursive, compile a non-empty key regex (panicking if invalid), then
emit the pages. -/
def listRun (compile : Str → Option (Str → Bool)) (s3Uri : Str) (recursive : Bool)
    (delimiter : Str) (keyRegex : Str) (unesc : Str → Option Str)
    (pages : List Page) : ListResult :=
  let bucket := (parseS3Uri s3Uri).1
  let delim := if recursive then [] else delimiter
  if keyRegex = [] then .ok (listEmitted bucket delim none unesc pages)
  else
    match compile keyRegex with
    | none => .panicked keyRegex
    | some f => .ok (listEmitted bucket delim (some f) unesc pages)

/-- C10: a non-empty key regex that fails to compile makes List panic via
regexp.MustCompile as soon as the listing starts, for every validated URI
and regardless of any server response; up-front argument validation
(which only checks the s3:// shape of URIs) does not reject it. -/
theorem c10_invalid_regex_panics (compile : Str → Option (Str → Bool)) (s3Uri : Str)
    (recursive : Bool) (delimiter keyRegex : Str) (unesc : Str → Option Str)
    (pages : List Page) (_hval : s3UriValid s3Uri = true)
    (hne : keyRegex ≠ []) (hcomp : compile keyRegex = none) :
    listRun compile s3Uri recursive delimiter keyRegex unesc pages =
      ListResult.panicked keyRegex := by
  simp [listRun, hne, hcomp]

/-- C10 witness: the theorem applied to the URI s3://b and the regex "("
under a compiler that rejects it. -/
theorem c10_witness :
    s3UriValid ['s', '3', ':', '/', '/', 'b'] = true ∧ (['('] : Str) ≠ [] ∧
    listRun (fun _ => none) ['s', '3', ':', '/', '/', 'b'] true ['/'] ['(']
        (fun _ => none) [] = ListResult.panicked ['('] :=
  ⟨by decide, by decide,
    c10_invalid_regex_panics (fun _ => none) ['s', '3', ':', '/', '/', 'b'] true
      ['/'] ['('] (fun _ => none) [] (by decide) (by decide) rfl⟩

/-! The copy pipeline (CopyAll in s3wrapper/s3.go).  The destination key
computation operates on delimiter segments; the CLI default delimiter "/"
is modelled as a single character. -/

/-- The trimming loop of CopyAll: while both segment lists have more than
one element and their heads agree, drop both heads. -/
def stripCommon : List Str → List Str → List Str
  | a :: b :: ds, x :: y :: ss =>
    if a = x then stripCommon (b :: ds) (y :: ss) else a :: b :: ds
  | d, _ => d

/-- Length of the longest common leading segment sequence. -/
def commonPfxLen : List Str → List Str → Nat
  | a :: as, b :: bs => if a = b then commonPfxLen as bs + 1 else 0
  | _, _ => 0

/-- The destination key computed by CopyAll for one non-prefix item:
flat keeps only the last segment of the source key; recurse strips the
common leading segments shared with the source prefix while both lists
retain more than one segment; otherwise the key is used unchanged.
destPfx is prepended in all cases. -/
def copyDest (delim : Char) (key srcPfx destPfx : Str) (recurse flat : Bool) : Str :=
  let trimDest0 := splitC delim key
  let trimDest :=
    if flat then [trimDest0.getLastD []]
    else if recurse then stripCommon trimDest0 (splitC delim srcPfx)
    else trimDest0
  destPfx ++ joinC delim trimDest

theorem getLastD_mem {a : Type} (l : List a) (d : a) (h : l ≠ []) :
    l.getLastD d ∈ l := by
  induction l generalizing d with
  | nil => exact absurd rfl h
  | cons x xs ih =>
    cases xs with
    | nil => simp [List.getLastD]
    | cons y ys =>
      have := ih (d := x) (by simp)
      simp only [List.getLastD] at this ⊢
      exact List.mem_cons_of_mem x this

theorem stripCommon_eq_drop (d : List Str) : ∀ (s : List Str),
    stripCommon d s =
      d.drop (min (commonPfxLen d s) (min (d.length - 1) (s.length - 1))) := by
  induction d with
  | nil => intro s; simp [stripCommon]
  | cons a tail ih =>
    intro s
    cases tail with
    | nil =>
      have h0 : ([a] : List Str).length - 1 = 0 := by simp
      simp [stripCommon, h0]
    | cons b ds =>
      cases s with
      | nil => simp [stripCommon, commonPfxLen]
      | cons x stail =>
        cases stail with
        | nil =>
          have h0 : ([x] : List Str).length - 1 = 0 := by simp
          simp [stripCommon, h0]
        | cons y ss =>
          by_cases hax : a = x
          · have heq : stripCommon (a :: b :: ds) (x :: y :: ss) =
                stripCommon (b :: ds) (y :: ss) := by
              simp [stripCommon, hax]
            rw [heq, ih (y :: ss)]
            have hc : commonPfxLen (a :: b :: ds) (x :: y :: ss) =
                commonPfxLen (b :: ds) (y :: ss) + 1 := by
              simp [commonPfxLen, hax]
            rw [hc]
            have harith :
                min (commonPfxLen (b :: ds) (y :: ss) + 1)
                  (min ((a :: b :: ds).length - 1) ((x :: y :: ss).length - 1)) =
                min (commonPfxLen (b :: ds) (y :: ss))
                  (min ((b :: ds).length - 1) ((y :: ss).length - 1)) + 1 := by
              simp only [List.length_cons]
              omega
            rw [harith]
            simp
          · have heq : stripCommon (a :: b :: ds) (x :: y :: ss) = a :: b :: ds := by
              simp [stripCommon, hax]
            have hc : commonPfxLen (a :: b :: ds) (x :: y :: ss) = 0 := by
              simp [commonPfxLen, hax]
            rw [heq, hc]
            simp

/-- C5 (amended): the CopyAll destination key.  With flat, it is the
destination prefix followed by exactly the final delimiter segment of the
source key (itself delimiter-free); with recurse, the longest common
leading segment sequence of source key and source prefix is stripped,
but both lists always retain at least their final segment; otherwise the
source key is appended unchanged. -/
theorem c5_copy_destination (delim : Char) (key srcPfx destPfx : Str) :
    (∀ recurse, copyDest delim key srcPfx destPfx recurse true =
        destPfx ++ (splitC delim key).getLastD [] ∧
        delim ∉ (splitC delim key).getLastD []) ∧
    copyDest delim key srcPfx destPfx true false =
      destPfx ++ joinC delim ((splitC delim key).drop
        (min (commonPfxLen (splitC delim key) (splitC delim srcPfx))
          (min ((splitC delim key).length - 1) ((splitC delim srcPfx).length - 1)))) ∧
    copyDest delim key srcPfx destPfx false false = destPfx ++ key := by
    refine ⟨?_, ?_, ?_⟩
    · intro recurse
      constructor
      · simp [copyDest, joinC]
      · exact mem_splitC_sep_free delim key _
          (getLastD_mem _ [] (splitC_ne_nil delim key))
    · simp only [copyDest, if_false, if_true, Bool.false_eq_true, Bool.true_eq_false]
      rw [stripCommon_eq_drop]
    · simp only [copyDest, if_false, Bool.false_eq_true]
      rw [joinC_splitC]

/-- C5 counterexample: with recurse and a source prefix of a single
segment (source URI without trailing slash, e.g. cp -r s3://src/a …,
key "a/x"), the code strips nothing, while the claim's longest-common-
prefix rule demands "x". -/
theorem c5_counterexample :
    copyDest '/' ['a', '/', 'x'] ['a'] [] true false = ['a', '/', 'x'] ∧
    (['a', '/', 'x'] : Str) ≠ ['x'] := by
  decide

/-! Copy failure handling (claim C6).  The observable effects of the
CopyAll workers: emitted result items, issued CopyObject requests,
and lines printed with fmt.Println (which writes to standard output).
Workers are modelled in input order; the claims are order-insensitive.
The per-item CopyObject outcome is an abstract parameter. -/

/-- The "error:" line printed by fmt.Println("error:", err). -/
def errLine (msg : Str) : Str :=
  ['e', 'r', 'r', 'o', 'r', ':', ' '] ++ msg

/-- Observable effects of a CopyAll run. -/
structure CopyEffects where
  emitted : List ListOutput
  requests : List (Str × Str × Str)
  stdout : List Str
  stderr : List Str
deriving DecidableEq

/-- CopyAll (s3wrapper/s3.go): prefix items are skipped; for every other
item a CopyObject request (destination bucket, CopySource path,
destination key) is issued; on failure the error line goes to standard
output and the item is dropped, on success the item is emitted with its
key replaced by the destination key; processing always continues. -/
def copyAllModel (delim : Char) (src dest : Str) (recurse flat : Bool)
    (copyErr : ListOutput → Option Str) : List ListOutput → CopyEffects
  | [] => ⟨[], [], [], []⟩
  | k :: rest =>
    let eff := copyAllModel delim src dest recurse flat copyErr rest
    if k.isPfx then eff
    else
      let srcPfx := (parseS3Uri src).2
      let destBucket := (parseS3Uri dest).1
      let destPfx := (parseS3Uri dest).2
      let kparts := parseS3Uri k.fullKey
      let sourcePath := '/' :: goPathJoin2 kparts.1 kparts.2
      let fullDest := copyDest delim k.key srcPfx destPfx recurse flat
      match copyErr k with
      | some msg => ⟨eff.emitted, (destBucket, sourcePath, fullDest) :: eff.requests,
          errLine msg :: eff.stdout, eff.stderr⟩
      | none => ⟨{ k with key := fullDest } :: eff.emitted,
          (destBucket, sourcePath, fullDest) :: eff.requests, eff.stdout, eff.stderr⟩

/-- C6 (amended): for every item whose CopyObject call fails, the error is
printed to standard output as "error: <message>", the item is missing
from the result channel, and the pipeline continues: the output lines are
exactly the failures in order, the emitted items are exactly the
successes (key rewritten to the destination), and nothing is written to
standard error by this pipeline. -/
theorem c6_copy_failures (delim : Char) (src dest : Str) (recurse flat : Bool)
    (copyErr : ListOutput → Option Str) (keys : List ListOutput) :
    (copyAllModel delim src dest recurse flat copyErr keys).stdout =
      keys.filterMap (fun k => if k.isPfx then none else (copyErr k).map errLine) ∧
    (copyAllModel delim src dest recurse flat copyErr keys).emitted =
      keys.filterMap (fun k =>
        if k.isPfx then none
        else
          match copyErr k with
          | some _ => none
          | none => some { k with key := (copyDest delim k.key (parseS3Uri src).2
              (parseS3Uri dest).2 recurse flat) }) ∧
    (copyAllModel delim src dest recurse flat copyErr keys).stderr = [] := by
  induction keys with
  | nil => simp [copyAllModel]
  | cons k rest ih =>
    obtain ⟨ih1, ih2, ih3⟩ := ih
    by_cases hp : k.isPfx
    · simp only [copyAllModel, hp, if_true, List.filterMap_cons]
      exact ⟨ih1, ih2, ih3⟩
    · cases he : copyErr k with
      | some msg =>
        simp only [copyAllModel, hp, Bool.false_eq_true, if_false, he,
          List.filterMap_cons]
        exact ⟨by simp [ih1], by simp [ih2], ih3⟩
      | none =>
        simp only [copyAllModel, hp, Bool.false_eq_true, if_false, he,
          List.filterMap_cons]
        exact ⟨by simp [ih1], by simp [ih2], ih3⟩

/-- C6 counterexample: a failing copy at a concrete item leaves standard
error empty; the "error: <message>" line appears on standard output
instead, so the claim's "logged to stderr" is false. -/
theorem c6_counterexample :
    (copyAllModel '/' ['s', '3', ':', '/', '/', 's', '/', 'a']
        ['s', '3', ':', '/', '/', 'd'] true false
        (fun _ => some ['b', 'o', 'o', 'm'])
        [⟨false, 1, ['a', '/', 'x'], 0, ['s'],
          ['s', '3', ':', '/', '/', 's', '/', 'a', '/', 'x']⟩]).stderr = [] ∧
    (copyAllModel '/' ['s', '3', ':', '/', '/', 's', '/', 'a']
        ['s', '3', ':', '/', '/', 'd'] true false
        (fun _ => some ['b', 'o', 'o', 'm'])
        [⟨false, 1, ['a', '/', 'x'], 0, ['s'],
          ['s', '3', ':', '/', '/', 's', '/', 'a', '/', 'x']⟩]).stdout =
      [errLine ['b', 'o', 'o', 'm']] := by
  decide

/-! Bucket enumeration (Ls in main.go together with ListBuckets in
s3wrapper/s3.go).  GetBucketLocation responses are modelled by an
abstract map from bucket name to the optional LocationConstraint of a
successful response (None models a nil constraint). -/

/-- The ListBuckets name filter: a bucket survives when its name is empty
or has the queried bucket-name part as a prefix. -/
def bucketKept (bktPfx name : Str) : Bool :=
  decide (name = []) || List.isPrefixOf bktPfx name

/-- The region check of Ls: a bucket passes when its LocationConstraint
is nil or equals the configured client region. -/
def regionOK (clientRegion : Str) : Option Str → Bool
  | none => true
  | some r => decide (r = clientRegion)

/-- The bucket-expansion loop of Ls for one bucket-prefix URI: in the
recursive-or-deep case each surviving, region-passing bucket becomes a
URI s3://bucket; otherwise a synthetic prefix item is emitted directly. -/
def expandBuckets (recursive : Bool) (searchDepth : Nat) (clientRegion : Str)
    (loc : Str → Option Str) (bktPfx : Str) :
    List Str → List Str × List ListOutput
  | [] => ([], [])
  | n :: rest =>
    let acc := expandBuckets recursive searchDepth clientRegion loc bktPfx rest
    if bucketKept bktPfx n then
      if recursive || decide (0 < searchDepth) then
        if regionOK clientRegion (loc n) then (FormatS3Uri n [] :: acc.1, acc.2)
        else acc
      else (acc.1, (⟨true, 0, [], 0, n, FormatS3Uri n []⟩ : ListOutput) :: acc.2)
    else acc

/-- C8 (amended): in a recursive or positive-search-depth invocation, the
expanded URI set consists of exactly the prefix-matched buckets whose
LocationConstraint is nil or equal to the configured client region; every
other matched bucket is silently skipped, and no synthetic output items
are produced in this mode. -/
theorem c8_bucket_region_filter (recursive : Bool) (searchDepth : Nat)
    (clientRegion : Str) (loc : Str → Option Str) (bktPfx : Str) (names : List Str)
    (hdeep : recursive = true ∨ 0 < searchDepth) :
    (expandBuckets recursive searchDepth clientRegion loc bktPfx names).1 =
      ((names.filter (bucketKept bktPfx)).filter
        (fun n => regionOK clientRegion (loc n))).map (fun n => FormatS3Uri n []) ∧
    (expandBuckets recursive searchDepth clientRegion loc bktPfx names).2 = [] := by
  have hcond : (recursive || decide (0 < searchDepth)) = true := by
    rcases hdeep with h | h
    · simp [h]
    · simp [h]
  induction names with
  | nil => simp [expandBuckets]
  | cons n rest ih =>
    obtain ⟨ih1, ih2⟩ := ih
    by_cases hk : bucketKept bktPfx n = true
    · by_cases hr : regionOK clientRegion (loc n) = true
      · simp only [expandBuckets, hk, if_true, hcond, hr, List.filter_cons]
        exact ⟨by simp [hr, ih1], ih2⟩
      · simp only [expandBuckets, hk, if_true, hcond,
          Bool.not_eq_true] at hr ⊢
        simp only [hr, Bool.false_eq_true, if_false, List.filter_cons, hk, if_true]
        exact ⟨by simp [hr, ih1], ih2⟩
    · simp only [expandBuckets, hk, Bool.false_eq_true, if_false, List.filter_cons]
      simp only [Bool.not_eq_true] at hk
      exact ⟨by simp [hk, ih1], ih2⟩

/-- C8 witness: the amended theorem applied to two concrete buckets, one
with a matching constraint and one cross-region. -/
theorem c8_witness :
    (true = true ∨ 0 < 0) ∧
    (expandBuckets true 0 ['e', 'u']
        (fun n => if n = ['b'] then some ['u', 's'] else none) [] [['b'], ['c']]).1 =
      ((([['b'], ['c']].filter (bucketKept [])).filter
        (fun n => regionOK ['e', 'u']
          ((fun n => if n = ['b'] then some ['u', 's'] else none) n))).map
        (fun n => FormatS3Uri n [])) :=
  ⟨Or.inl rfl,
    (c8_bucket_region_filter true 0 ['e', 'u']
      (fun n => if n = ['b'] then some ['u', 's'] else none) [] [['b'], ['c']]
      (Or.inl rfl)).1⟩

/-- C8 counterexample: a bucket whose get-bucket-location response has a
nil LocationConstraint is included even though no response region equals
the configured client region, so inclusion is not conditioned on a region
match as claimed. -/
theorem c8_counterexample :
    FormatS3Uri ['b'] [] ∈
      (expandBuckets true 0 ['e', 'u'] (fun _ => none) [] [['b']]).1 ∧
    (fun (_ : Str) => (none : Option Str)) ['b'] ≠ some ['e', 'u'] := by
  decide

/-! The legacy paged listing with retry (List in the second, historical
version of s3wrapper/s3.go, around lines 575-609).  Server responses are
an abstract script indexed by the number of calls already made; the loop
is executed under explicit fuel since the code itself need not
terminate. -/

/-- Constant maxRetries from the legacy s3wrapper. -/
def maxRetries : Nat := 5

/-- The special-cased error message. -/
def oorMsg : Str :=
  ['r', 'u', 'n', 't', 'i', 'm', 'e', ' ', 'e', 'r', 'r', 'o', 'r', ':', ' ',
   'i', 'n', 'd', 'e', 'x', ' ', 'o', 'u', 't', ' ', 'o', 'f', ' ',
   'r', 'a', 'n', 'g', 'e']

/-- One result of bucket.List: an error, or a page with object keys,
common prefixes and the truncation flag. -/
inductive LCallRes where
  | fail (msg : Str)
  | page (contents : List Str) (commonPfxs : List Str) (truncated : Bool)

/-- Final outcome of the legacy List loop: pages emitted and the channel
closed; log.Panic; or fuel exhausted with the loop still running. -/
inductive LOutcome where
  | finished (emitted : Nat) (calls : Nat) (sleeps : Nat)
  | panicked (msg : Str) (calls : Nat)
  | outOfFuel (calls : Nat)
deriving DecidableEq

/-- The nested retry/pagination loop of the legacy List.  Arguments:
fuel, calls made so far, failed attempts in the current inner loop,
sleeps performed, pages emitted, current marker.  On the special error
the code breaks only the inner retry loop, so the outer loop re-issues
the call with a fresh attempts counter. -/
def legacyListGo (script : Nat → LCallRes) :
    Nat → Nat → Nat → Nat → Nat → Str → LOutcome
  | 0, calls, _, _, _, _ => .outOfFuel calls
  | fuel + 1, calls, attempts, sleeps, emitted, marker =>
    match script calls with
    | .fail msg =>
      if msg = oorMsg then
        legacyListGo script fuel (calls + 1) 0 sleeps emitted marker
      else if maxRetries ≤ attempts + 1 then .panicked msg (calls + 1)
      else legacyListGo script fuel (calls + 1) (attempts + 1) (sleeps + 1)
        emitted marker
    | .page contents pfxs truncated =>
      let marker2 :=
        if contents ≠ [] then contents.getLastD []
        else if pfxs ≠ [] then pfxs.getLastD [] else marker
      if truncated then
        legacyListGo script fuel (calls + 1) 0 sleeps (emitted + 1) marker2
      else .finished (emitted + 1) (calls + 1) sleeps

/-- C7: when every call returns the special "runtime error: index out of
range" error, the legacy List loop never terminates and never closes its
channel: under any fuel bound it has issued one further LIST call per
step and is still running (no clean termination, no panic, no sleeps). -/
theorem c7_special_error_relists (fuel : Nat) :
    ∀ (calls attempts sleeps emitted : Nat) (marker : Str),
    legacyListGo (fun _ => LCallRes.fail oorMsg) fuel calls attempts sleeps
        emitted marker = LOutcome.outOfFuel (calls + fuel) := by
  induction fuel with
  | zero => intro calls _ _ _ _; simp [legacyListGo]
  | succ fuel ih =>
    intro calls attempts sleeps emitted marker
    have harith : calls + 1 + fuel = calls + (fuel + 1) := by omega
    simp [legacyListGo, ih, harith]

/-! The concurrency gate (claim C9): the buffered channel of capacity N
created in New and acquired around every pipeline network call.  Worker
populations are abstracted to counts: idle workers, workers holding a
gate token, and workers with a network request in flight (which hold a
token for its whole duration). -/

/-- Counting abstraction of the worker population. -/
structure GateState where
  idle : Nat
  token : Nat
  busy : Nat
deriving DecidableEq

/-- Transitions of the gated workers: a token is acquired only when fewer
than N are outstanding (channel send on a buffer of capacity N); requests
start and end while the token is held; release returns the token. -/
inductive GateStep (N : Nat) : GateState → GateState → Prop
  | acquire (s : GateState) : 0 < s.idle → s.token + s.busy < N →
      GateStep N s ⟨s.idle - 1, s.token + 1, s.busy⟩
  | reqStart (s : GateState) : 0 < s.token →
      GateStep N s ⟨s.idle, s.token - 1, s.busy + 1⟩
  | reqEnd (s : GateState) : 0 < s.busy →
      GateStep N s ⟨s.idle, s.token + 1, s.busy - 1⟩
  | release (s : GateState) : 0 < s.token →
      GateStep N s ⟨s.idle + 1, s.token - 1, s.busy⟩

/-- Reachability from an initial population of idle workers. -/
def GateReach (N : Nat) (s : GateState) : Prop :=
  ∃ workers : Nat, Relation.ReflTransGen (GateStep N) ⟨workers, 0, 0⟩ s

theorem gate_tokens_bounded (N : Nat) (s : GateState) (h : GateReach N s) :
    s.token + s.busy ≤ N := by
  obtain ⟨w, hreach⟩ := h
  induction hreach with
  | refl => simp
  | tail hab hbc ih =>
    cases hbc with
    | acquire h1 h2 => simp only at *; omega
    | reqStart h1 => simp only at *; omega
    | reqEnd h1 => simp only at *; omega
    | release h1 => simp only at *; omega

/-- C9: in every state the gate discipline can reach, at most N network
requests are in flight: every worker holds one token for the duration of
its request and at most N tokens are ever outstanding. -/
theorem c9_gate_bounds_inflight (N : Nat) (s : GateState) (h : GateReach N s) :
    s.busy ≤ N := by
  have := gate_tokens_bounded N s h
  omega

/-- C9 witness: the theorem applied to a concrete reachable state with
one in-flight request under capacity 1. -/
theorem c9_witness :
    GateReach 1 ⟨1, 0, 1⟩ ∧ (⟨1, 0, 1⟩ : GateState).busy ≤ 1 := by
  have h1 : GateStep 1 ⟨2, 0, 0⟩ ⟨1, 1, 0⟩ :=
    GateStep.acquire ⟨2, 0, 0⟩ (by decide) (by decide)
  have h2 : GateStep 1 ⟨1, 1, 0⟩ ⟨1, 0, 1⟩ :=
    GateStep.reqStart ⟨1, 1, 0⟩ (by decide)
  have hreach : GateReach 1 ⟨1, 0, 1⟩ :=
    ⟨2, Relation.ReflTransGen.tail (Relation.ReflTransGen.tail
      Relation.ReflTransGen.refl h1) h2⟩
  exact ⟨hreach, c9_gate_bounds_inflight 1 ⟨1, 0, 1⟩ hreach⟩

/-- The concrete rm scenario: 2500 keys of one bucket yield chunk sizes
1000, 1000 and 500. -/
theorem chunkSizes_2500 : chunkSizes 2500 = [1000, 1000, 500] := by
  decide

/-- C5 witness: the destination-key theorem applied to the concrete
delimiter "/", key "a/b/x", source prefix "a/" and destination prefix
"p/". -/
theorem c5_witness :
    (∀ recurse, copyDest '/' ['a', '/', 'b', '/', 'x'] ['a', '/'] ['p', '/']
        recurse true =
        ['p', '/'] ++ (splitC '/' ['a', '/', 'b', '/', 'x']).getLastD [] ∧
        '/' ∉ (splitC '/' ['a', '/', 'b', '/', 'x']).getLastD []) ∧
    copyDest '/' ['a', '/', 'b', '/', 'x'] ['a', '/'] ['p', '/'] true false =
      ['p', '/'] ++ joinC '/' ((splitC '/' ['a', '/', 'b', '/', 'x']).drop
        (min (commonPfxLen (splitC '/' ['a', '/', 'b', '/', 'x'])
            (splitC '/' ['a', '/']))
          (min ((splitC '/' ['a', '/', 'b', '/', 'x']).length - 1)
            ((splitC '/' ['a', '/']).length - 1)))) ∧
    copyDest '/' ['a', '/', 'b', '/', 'x'] ['a', '/'] ['p', '/'] false false =
      ['p', '/'] ++ ['a', '/', 'b', '/', 'x'] :=
  c5_copy_destination '/' ['a', '/', 'b', '/', 'x'] ['a', '/'] ['p', '/']

/-- C6 witness: the copy-failure theorem applied to a concrete run with
one failing and one succeeding item. -/
theorem c6_witness :
    (copyAllModel '/' ['s', '3', ':', '/', '/', 's']
        ['s', '3', ':', '/', '/', 'd'] false false
        (fun k => if k.key = ['x'] then some ['b', 'a', 'd'] else none)
        [⟨false, 1, ['x'], 0, ['s'], ['s', '3', ':', '/', '/', 's', '/', 'x']⟩,
         ⟨false, 2, ['y'], 0, ['s'], ['s', '3', ':', '/', '/', 's', '/', 'y']⟩]).stdout =
      [⟨false, 1, (['x'] : Str), 0, ['s'], ['s', '3', ':', '/', '/', 's', '/', 'x']⟩,
       ⟨false, 2, ['y'], 0, ['s'], ['s', '3', ':', '/', '/', 's', '/', 'y']⟩].filterMap
        (fun k => if k.isPfx then none
          else ((fun k2 => if ListOutput.key k2 = ['x'] then
            some (['b', 'a', 'd'] : Str) else none) k).map errLine) :=
  (c6_copy_failures '/' ['s', '3', ':', '/', '/', 's'] ['s', '3', ':', '/', '/', 'd']
    false false (fun k => if k.key = ['x'] then some ['b', 'a', 'd'] else none)
    [⟨false, 1, ['x'], 0, ['s'], ['s', '3', ':', '/', '/', 's', '/', 'x']⟩,
     ⟨false, 2, ['y'], 0, ['s'], ['s', '3', ':', '/', '/', 's', '/', 'y']⟩]).1

end FastS3
